import Mathlib

/-!
Shallow embedding of `src/lib/src/http/header.rs` (Rocket's HTTP header
collection): the `Header` name/value pair and the `HeaderMap` multi-map
from header names to FIFO-ordered value sequences.

The Rust `HeaderMap` stores a `HashMap<Cow<str>, Vec<Cow<str>>>`. We model
it as an association list `List (String × List String)` with first-match
lookup; `HashMap::insert`, the `entry(..).or_insert(..)` idiom, and
`HashMap::remove` become `insertEntry`, `modifyEntry` and `removeEntry`.
`Cow<str>` values are modelled as `String` (ownership is irrelevant to the
stored text). Rust methods taking `&mut self` become functions returning
the updated map (paired with the Rust return value where there is one);
`add_all`, which drains its input vector via `Vec::append`, additionally
returns the post-call state of that vector.
-/

namespace Rocket

/-- `Header` from header.rs: a name/value pair of ownership-flexible text. -/
structure Header where
  name : String
  value : String
deriving DecidableEq, Repr

namespace Header

/-- `Header::new(name, value)`: plain construction, no validation. -/
def new (name value : String) : Header :=
  { name := name, value := value }

/-- `impl Display for Header`: `write!(f, "{}: {}", self.name, self.value)`. -/
def display (h : Header) : String :=
  h.name ++ ": " ++ h.value

end Header

/-- The underlying storage of a `HeaderMap`: name ↦ value-sequence entries. -/
abbrev Entries := List (String × List String)

/-- `HashMap::get` on the modelled storage: first entry whose key matches. -/
def lookupName : Entries → String → Option (List String)
  | [], _ => none
  | (k, vs) :: rest, name => if k = name then some vs else lookupName rest name

/-- `HashMap::insert name vs`: overwrite the entry for `name` with `vs`, or
append a fresh entry when `name` is absent. -/
def insertEntry : Entries → String → List String → Entries
  | [], name, vs => [(name, vs)]
  | (k, old) :: rest, name, vs =>
    if k = name then (k, vs) :: rest
    else (k, old) :: insertEntry rest name vs

/-- The `entry(name).or_insert(vec![])` idiom followed by an in-place edit
`f` of the value vector: edit the existing entry, or append `(name, f [])`. -/
def modifyEntry : Entries → String → (List String → List String) → Entries
  | [], name, f => [(name, f [])]
  | (k, old) :: rest, name, f =>
    if k = name then (k, f old) :: rest
    else (k, old) :: modifyEntry rest name f

/-- `HashMap::remove name`: delete the entry (entries) keyed by `name`. -/
def removeEntry : Entries → String → Entries
  | [], _ => []
  | (k, vs) :: rest, name =>
    if k = name then removeEntry rest name
    else (k, vs) :: removeEntry rest name

/-- `HeaderMap` from header.rs: `headers: HashMap<Cow<str>, Vec<Cow<str>>>`. -/
structure HeaderMap where
  headers : Entries
deriving DecidableEq, Repr

namespace HeaderMap

/-- `HeaderMap::new()`: the empty collection. -/
def new : HeaderMap :=
  { headers := [] }

/-- `self.headers.get(name)` as used by the query methods. -/
def lookup (m : HeaderMap) (name : String) : Option (List String) :=
  lookupName m.headers name

/-- `HeaderMap::contains`: `self.headers.get(name).is_some()`. -/
def contains (m : HeaderMap) (name : String) : Bool :=
  (m.lookup name).isSome

/-- `HeaderMap::len`: count of all values across all names
(`flat_map` over the value vectors, then `count`). -/
def len (m : HeaderMap) : Nat :=
  (m.headers.map (fun p => p.2.length)).sum

/-- `HeaderMap::is_empty`: `self.headers.is_empty()` (no names stored). -/
def is_empty (m : HeaderMap) : Bool :=
  m.headers.isEmpty

/-- `HeaderMap::get`: all values stored for `name`, FIFO; the `Option` of
`headers.get(name)` flattened into a (possibly empty) sequence. -/
def get (m : HeaderMap) (name : String) : List String :=
  match m.lookup name with
  | some vs => vs
  | none => []

/-- `HeaderMap::get_one`: `headers.get(name).and_then(|values|
if values.len() >= 1 { Some(values[0]) } else { None })`. -/
def get_one (m : HeaderMap) (name : String) : Option String :=
  (m.lookup name).bind (fun vs =>
    if h : 1 ≤ vs.length then some (vs.get ⟨0, h⟩) else none)

/-- `HeaderMap::replace`: `self.headers.insert(header.name,
vec![header.value]).is_some()` — new map paired with the returned Bool. -/
def replace (m : HeaderMap) (h : Header) : HeaderMap × Bool :=
  ({ headers := insertEntry m.headers h.name [h.value] },
   (m.lookup h.name).isSome)

/-- `HeaderMap::replace_raw`: `self.replace(Header::new(name, value))`. -/
def replace_raw (m : HeaderMap) (name value : String) : HeaderMap × Bool :=
  m.replace (Header.new name value)

/-- `HeaderMap::replace_all`: `self.headers.insert(name, values)`
(returned `Option` discarded). -/
def replace_all (m : HeaderMap) (name : String) (values : List String) :
    HeaderMap :=
  { headers := insertEntry m.headers name values }

/-- `HeaderMap::add`:
`self.headers.entry(header.name).or_insert(vec![]).push(header.value)`. -/
def add (m : HeaderMap) (h : Header) : HeaderMap :=
  { headers := modifyEntry m.headers h.name (fun vs => vs ++ [h.value]) }

/-- `HeaderMap::add_raw`: `self.add(Header::new(name, value))`. -/
def add_raw (m : HeaderMap) (name value : String) : HeaderMap :=
  m.add (Header.new name value)

/-- `HeaderMap::add_all`:
`self.headers.entry(name).or_insert(vec![]).append(values)`; `Vec::append`
moves every element out of `values`, so the input vector is `[]` after the
call — returned here as the second component. -/
def add_all (m : HeaderMap) (name : String) (values : List String) :
    HeaderMap × List String :=
  ({ headers := modifyEntry m.headers name (fun vs => vs ++ values) }, [])

/-- `HeaderMap::remove`: `self.headers.remove(name)`. -/
def remove (m : HeaderMap) (name : String) : HeaderMap :=
  { headers := removeEntry m.headers name }

/-- `HeaderMap::into_iter`: flatten each `(name, values)` entry into one
`Header` per value, values in stored (FIFO) order. -/
def into_iter (m : HeaderMap) : List Header :=
  m.headers.flatMap (fun p => p.2.map (fun v => { name := p.1, value := v }))

/-- `HeaderMap::iter`: same flattening as `into_iter`, borrowing. -/
def iter (m : HeaderMap) : List Header :=
  m.into_iter

/-- `HeaderMap::remove_all`: `mem::replace(self, HeaderMap::new())` then
collect the old map's `into_iter` — the drained headers paired with the
new (empty) state of `self`. -/
def remove_all (m : HeaderMap) : List Header × HeaderMap :=
  (m.into_iter, new)

end HeaderMap

/-! ### Lookup characterizations of the storage operations -/

theorem lookupName_insertEntry (hs : Entries) (n n' : String)
    (vs : List String) :
    lookupName (insertEntry hs n vs) n' =
      if n = n' then some vs else lookupName hs n' := by
  induction hs with
  | nil => simp [insertEntry, lookupName]
  | cons p rest ih =>
      obtain ⟨k, old⟩ := p
      by_cases hk : k = n
      · subst hk
        by_cases hn : k = n' <;> simp [insertEntry, lookupName, hn]
      · by_cases hn : n = n' <;> by_cases hk' : k = n' <;>
          simp_all [insertEntry, lookupName]

theorem lookupName_modifyEntry (hs : Entries) (n n' : String)
    (f : List String → List String) :
    lookupName (modifyEntry hs n f) n' =
      if n = n' then some (f ((lookupName hs n).getD []))
      else lookupName hs n' := by
  induction hs with
  | nil => simp [modifyEntry, lookupName]
  | cons p rest ih =>
      obtain ⟨k, old⟩ := p
      by_cases hk : k = n
      · subst hk
        by_cases hn : k = n' <;> simp [modifyEntry, lookupName, hn]
      · by_cases hn : n = n' <;> by_cases hk' : k = n' <;>
          simp_all [modifyEntry, lookupName]

theorem lookupName_removeEntry (hs : Entries) (n n' : String) :
    lookupName (removeEntry hs n) n' =
      if n = n' then none else lookupName hs n' := by
  induction hs with
  | nil => simp [removeEntry, lookupName]
  | cons p rest ih =>
      obtain ⟨k, old⟩ := p
      by_cases hk : k = n
      · subst hk
        by_cases hn : k = n' <;> simp_all [removeEntry, lookupName, hn]
      · by_cases hn : n = n' <;> by_cases hk' : k = n' <;>
          simp_all [removeEntry, lookupName]

theorem lookupName_eq_none_iff (hs : Entries) (n : String) :
    lookupName hs n = none ↔ n ∉ hs.map Prod.fst := by
  induction hs with
  | nil => simp [lookupName]
  | cons p rest ih =>
      obtain ⟨k, old⟩ := p
      by_cases hk : k = n <;> simp_all [lookupName, eq_comm]

theorem removeEntry_of_lookup_none (hs : Entries) (n : String)
    (h : lookupName hs n = none) : removeEntry hs n = hs := by
  induction hs with
  | nil => rfl
  | cons p rest ih =>
      obtain ⟨k, old⟩ := p
      by_cases hk : k = n <;> simp_all [lookupName, removeEntry, hk]

theorem get_eq_getD (m : HeaderMap) (n : String) :
    m.get n = (m.lookup n).getD [] := by
  cases h : m.lookup n <;> simp [HeaderMap.get, h]

theorem get_one_eq_head (m : HeaderMap) (n : String) :
    m.get_one n = (m.get n).head? := by
  unfold HeaderMap.get_one
  rw [get_eq_getD]
  cases h : m.lookup n with
  | none => simp
  | some vs =>
      cases vs with
      | nil => simp
      | cons v rest => simp

/-! ### Per-operation lookup lemmas at the `HeaderMap` level -/

theorem lookup_add (m : HeaderMap) (h : Header) (n : String) :
    (m.add h).lookup n =
      if h.name = n then some (m.get h.name ++ [h.value]) else m.lookup n := by
  simp [HeaderMap.add, HeaderMap.lookup, lookupName_modifyEntry, get_eq_getD]

theorem lookup_replace (m : HeaderMap) (h : Header) (n : String) :
    (m.replace h).fst.lookup n =
      if h.name = n then some [h.value] else m.lookup n := by
  simp [HeaderMap.replace, HeaderMap.lookup, lookupName_insertEntry]

theorem lookup_replace_all (m : HeaderMap) (n n' : String)
    (vs : List String) :
    (m.replace_all n vs).lookup n' =
      if n = n' then some vs else m.lookup n' := by
  simp [HeaderMap.replace_all, HeaderMap.lookup, lookupName_insertEntry]

theorem lookup_add_all (m : HeaderMap) (n n' : String) (vs : List String) :
    (m.add_all n vs).fst.lookup n' =
      if n = n' then some (m.get n ++ vs) else m.lookup n' := by
  simp [HeaderMap.add_all, HeaderMap.lookup, lookupName_modifyEntry,
    get_eq_getD]

theorem lookup_remove (m : HeaderMap) (n n' : String) :
    (m.remove n).lookup n' = if n = n' then none else m.lookup n' := by
  simp [HeaderMap.remove, HeaderMap.lookup, lookupName_removeEntry]

/-! ### Length lemmas -/

theorem len_modifyEntry_push (hs : Entries) (n v : String) :
    ((modifyEntry hs n (fun vs => vs ++ [v])).map
        (fun p => p.2.length)).sum
      = (hs.map (fun p => p.2.length)).sum + 1 := by
  induction hs with
  | nil => simp [modifyEntry]
  | cons p rest ih =>
      obtain ⟨k, old⟩ := p
      by_cases hk : k = n <;> simp_all [modifyEntry, hk] <;> omega

theorem len_insertEntry (hs : Entries) (n : String) (vs : List String) :
    ((insertEntry hs n vs).map (fun p => p.2.length)).sum
        + ((lookupName hs n).getD []).length
      = (hs.map (fun p => p.2.length)).sum + vs.length := by
  induction hs with
  | nil => simp [insertEntry, lookupName]
  | cons p rest ih =>
      obtain ⟨k, old⟩ := p
      by_cases hk : k = n <;> simp_all [insertEntry, lookupName, hk] <;> omega

theorem len_removeEntry_of_nodup (hs : Entries) (n : String)
    (hnd : (hs.map Prod.fst).Nodup) :
    ((removeEntry hs n).map (fun p => p.2.length)).sum
        + ((lookupName hs n).getD []).length
      = (hs.map (fun p => p.2.length)).sum := by
  induction hs with
  | nil => simp [removeEntry, lookupName]
  | cons p rest ih =>
      obtain ⟨k, old⟩ := p
      rw [List.map_cons, List.nodup_cons] at hnd
      by_cases hk : k = n
      · subst hk
        have hrest : lookupName rest k = none :=
          (lookupName_eq_none_iff rest k).2 hnd.1
        simp [removeEntry, lookupName,
          removeEntry_of_lookup_none rest k hrest]
        omega
      · simp_all [removeEntry, lookupName, hk]
        omega

/-! ### Flattening lemmas for `into_iter` and `remove_all` -/

theorem into_iter_filter_name (hs : Entries) (n : String) :
    (((hs.flatMap (fun p => p.2.map (fun v => Header.mk p.1 v))).filter
        (fun h => h.name == n)).map Header.value)
      = hs.flatMap (fun p => if p.1 = n then p.2 else []) := by
  have head : ∀ (k : String) (old : List String),
      (((old.map (fun v => Header.mk k v)).filter
          (fun h => h.name == n)).map Header.value)
        = if k = n then old else [] := by
    intro k old
    induction old with
    | nil => simp
    | cons v vs ih => by_cases hk : k = n <;> simp_all [hk]
  induction hs with
  | nil => rfl
  | cons p rest ih =>
      obtain ⟨k, old⟩ := p
      simp only [List.flatMap_cons, List.filter_append, List.map_append,
        ih, head]

theorem flatMap_select_none (hs : Entries) (n : String)
    (h : lookupName hs n = none) :
    (hs.flatMap (fun p => if p.1 = n then p.2 else [])) = [] := by
  induction hs with
  | nil => rfl
  | cons p rest ih =>
      obtain ⟨k, old⟩ := p
      simp only [lookupName] at h
      by_cases hk : k = n
      · rw [if_pos hk] at h; simp at h
      · rw [if_neg hk] at h
        simp only [List.flatMap_cons, if_neg hk, List.nil_append]
        exact ih h

theorem flatMap_select_of_nodup (hs : Entries) (n : String)
    (hnd : (hs.map Prod.fst).Nodup) :
    (hs.flatMap (fun p => if p.1 = n then p.2 else []))
      = (lookupName hs n).getD [] := by
  induction hs with
  | nil => rfl
  | cons p rest ih =>
      obtain ⟨k, old⟩ := p
      rw [List.map_cons, List.nodup_cons] at hnd
      by_cases hk : k = n
      · subst hk
        have hrest : lookupName rest k = none :=
          (lookupName_eq_none_iff rest k).2 hnd.1
        simp [lookupName, flatMap_select_none rest k hrest]
      · simp [lookupName, hk, ih hnd.2]

/-- A sequence of `add_raw` calls with one shared name, in call order. -/
def addList (m : HeaderMap) (name : String) (vs : List String) : HeaderMap :=
  vs.foldl (fun acc v => acc.add_raw name v) m

theorem addList_lookup (vs : List String) (m : HeaderMap) (n : String) :
    (addList m n vs).lookup n =
      if vs = [] then m.lookup n else some (m.get n ++ vs) := by
  induction vs generalizing m with
  | nil => simp [addList]
  | cons v rest ih =>
      have h1 : (m.add_raw n v).lookup n = some (m.get n ++ [v]) := by
        simp [HeaderMap.add_raw, Header.new, lookup_add]
      have h2 : (m.add_raw n v).get n = m.get n ++ [v] := by
        rw [get_eq_getD, h1]; rfl
      show (addList (m.add_raw n v) n rest).lookup n = _
      rw [ih]
      cases rest with
      | nil => simp [h1]
      | cons w ws => simp [h2]

theorem insertEntry_eq_modifyEntry (hs : Entries) (n : String)
    (f : List String → List String) (h : lookupName hs n = none) :
    insertEntry hs n (f []) = modifyEntry hs n f := by
  induction hs with
  | nil => rfl
  | cons p rest ih =>
      obtain ⟨k, old⟩ := p
      simp only [lookupName] at h
      by_cases hk : k = n
      · rw [if_pos hk] at h; simp at h
      · rw [if_neg hk] at h
        simp [insertEntry, modifyEntry, hk, ih h]

/-! ### Claim theorems -/

/-- C2: after `replace h`, `get h.name` yields exactly the single value
`h.value` (count 1), `get_one h.name` returns `h.value`, and the call
returns `true` iff a header with name `h.name` existed before the call. -/
theorem claim_C2_replace_overwrite (m : HeaderMap) (h : Header) :
    (m.replace h).fst.get h.name = [h.value] ∧
    ((m.replace h).fst.get h.name).length = 1 ∧
    (m.replace h).fst.get_one h.name = some h.value ∧
    ((m.replace h).snd = true ↔ m.contains h.name = true) := by
  have hg : (m.replace h).fst.get h.name = [h.value] := by
    rw [get_eq_getD, lookup_replace, if_pos rfl]; rfl
  refine ⟨hg, by rw [hg]; rfl, ?_, Iff.rfl⟩
  rw [get_one_eq_head, hg]; rfl

/-- C4: replacing a name absent from the map produces exactly the same map
state as adding a fresh single-valued entry, and the call returns `false`
(no prior value existed) — for both `replace` and `replace_raw`. -/
theorem claim_C4_replace_absent (m : HeaderMap) (n v : String)
    (hab : m.contains n = false) :
    (m.replace (Header.new n v)).fst = m.add (Header.new n v) ∧
    (m.replace (Header.new n v)).snd = false ∧
    (m.replace_raw n v).fst = m.add_raw n v ∧
    (m.replace_raw n v).snd = false := by
  have hnone : m.lookup n = none := by
    cases hc : m.lookup n with
    | none => rfl
    | some vs => simp [HeaderMap.contains, hc] at hab
  have hfst : (m.replace (Header.new n v)).fst = m.add (Header.new n v) :=
    congrArg HeaderMap.mk
      (insertEntry_eq_modifyEntry m.headers n (fun vs => vs ++ [v]) hnone)
  have hsnd : (m.replace (Header.new n v)).snd = false := by
    show (m.lookup n).isSome = false
    rw [hnone]; rfl
  exact ⟨hfst, hsnd, hfst, hsnd⟩

/-- C4 witness: replace at the concrete absent name `X-Custom` on the empty
map. -/
theorem claim_C4_replace_absent_witness :
    (HeaderMap.new.replace (Header.new "X-Custom" "v")).fst
        = HeaderMap.new.add (Header.new "X-Custom" "v") ∧
    (HeaderMap.new.replace (Header.new "X-Custom" "v")).snd = false ∧
    (HeaderMap.new.replace_raw "X-Custom" "v").fst
        = HeaderMap.new.add_raw "X-Custom" "v" ∧
    (HeaderMap.new.replace_raw "X-Custom" "v").snd = false :=
  claim_C4_replace_absent HeaderMap.new "X-Custom" "v" (by decide)

/-- C6: `len` is the total number of stored values summed across all names
(so `add` always increments it by one, and `replace` makes the count for
the name exactly one); concretely two `add_raw` calls with the same name
give `len = 2`, and `replace_raw` twice on one name leaves `len = 1` with
the last value winning. -/
theorem claim_C6_len_counts_values :
    (∀ m : HeaderMap, m.len = (m.headers.map (fun p => p.2.length)).sum) ∧
    (∀ (m : HeaderMap) (h : Header), (m.add h).len = m.len + 1) ∧
    (∀ (m : HeaderMap) (h : Header),
      (m.replace h).fst.len + (m.get h.name).length = m.len + 1) ∧
    ((HeaderMap.new.add_raw "X-Custom" "value_1").add_raw "X-Custom"
        "value_2").len = 2 ∧
    ((HeaderMap.new.replace_raw "Content-Type"
        "application/json").fst.replace_raw "Content-Type"
          "image/gif").fst.len = 1 ∧
    ((HeaderMap.new.replace_raw "Content-Type"
        "application/json").fst.replace_raw "Content-Type"
          "image/gif").fst.get_one "Content-Type" = some "image/gif" := by
  refine ⟨fun m => rfl, ?_, ?_, by decide, by decide, by decide⟩
  · intro m h
    exact len_modifyEntry_push m.headers h.name h.value
  · intro m h
    rw [get_eq_getD]
    exact len_insertEntry m.headers h.name [h.value]

/-- C7: `add_all` appends all given values, in order, after the values
already stored under the name, and leaves the input sequence empty; two
successive `add_all` calls with the same name concatenate. -/
theorem claim_C7_add_all_appends :
    (∀ (m : HeaderMap) (n : String) (vs : List String),
      (m.add_all n vs).snd = [] ∧
      (m.add_all n vs).fst.get n = m.get n ++ vs) ∧
    (((HeaderMap.new.add_all "X-Custom"
        ["value_1", "value_2"]).fst.add_all "X-Custom"
          ["value_3", "value_4"]).fst.get "X-Custom"
      = ["value_1", "value_2", "value_3", "value_4"]) ∧
    ((HeaderMap.new.add_all "X-Custom"
        ["value_1", "value_2"]).fst.add_all "X-Custom"
          ["value_3", "value_4"]).snd = [] := by
  refine ⟨fun m n vs => ⟨rfl, ?_⟩, by decide, rfl⟩
  simp [get_eq_getD, lookup_add_all]

/-- C8: after `remove n`, `contains n` is false and `get n` is empty while
every other name is unchanged; removing an absent name leaves the map
entirely unchanged, so a second `remove` of the same name is always a
no-op. -/
theorem claim_C8_remove (m : HeaderMap) (n n' : String) (hne : n' ≠ n) :
    (m.remove n).contains n = false ∧
    (m.remove n).get n = [] ∧
    (m.remove n).get n' = m.get n' ∧
    (m.contains n = false → m.remove n = m) ∧
    (m.remove n).remove n = m.remove n := by
  have hn : (m.remove n).lookup n = none := by
    rw [lookup_remove, if_pos rfl]
  refine ⟨?_, ?_, ?_, ?_, ?_⟩
  · show ((m.remove n).lookup n).isSome = false
    rw [hn]; rfl
  · rw [get_eq_getD, hn]; rfl
  · rw [get_eq_getD, get_eq_getD, lookup_remove,
      if_neg (fun hh => hne hh.symm)]
  · intro hab
    have hnone : m.lookup n = none := by
      cases hc : m.lookup n with
      | none => rfl
      | some vs => simp [HeaderMap.contains, hc] at hab
    exact congrArg HeaderMap.mk (removeEntry_of_lookup_none m.headers n hnone)
  · exact congrArg HeaderMap.mk
      (removeEntry_of_lookup_none (m.remove n).headers n hn)

/-- C8 witness: removing `B` from a map holding only `A` leaves `A`
untouched. -/
theorem claim_C8_remove_witness :
    ((HeaderMap.new.add_raw "A" "x").remove "B").get "A"
      = (HeaderMap.new.add_raw "A" "x").get "A" :=
  (claim_C8_remove (HeaderMap.new.add_raw "A" "x") "B" "A" (by decide)).2.2.1

/-- C9: the Display rendering of `Header.new n v` is exactly
`n ++ ": " ++ v`, with no escaping or case transformation; concretely
`Header.new "X-Custom-Header" "custom value"` renders as
`"X-Custom-Header: custom value"`. -/
theorem claim_C9_display :
    (∀ n v : String, (Header.new n v).display = n ++ ": " ++ v) ∧
    (Header.new "X-Custom-Header" "custom value").display
      = "X-Custom-Header: custom value" :=
  ⟨fun n v => rfl, by decide⟩

/-- C3: a sequence of `add_raw` calls with one name on a fresh empty map
stores exactly those values in call order (FIFO): `get` returns them all in
order and `get_one` returns the first; concretely for
`value_1` then `value_2` under `X-Custom`. -/
theorem claim_C3_add_fifo :
    (∀ (name : String) (vs : List String),
      (addList HeaderMap.new name vs).get name = vs ∧
      (addList HeaderMap.new name vs).get_one name = vs.head?) ∧
    ((HeaderMap.new.add_raw "X-Custom" "value_1").add_raw "X-Custom"
        "value_2").get "X-Custom" = ["value_1", "value_2"] ∧
    ((HeaderMap.new.add_raw "X-Custom" "value_1").add_raw "X-Custom"
        "value_2").get_one "X-Custom" = some "value_1" := by
  have hg : ∀ (name : String) (vs : List String),
      (addList HeaderMap.new name vs).get name = vs := by
    intro name vs
    rw [get_eq_getD, addList_lookup]
    cases vs with
    | nil => rfl
    | cons v rest =>
        simp [HeaderMap.new, HeaderMap.lookup, lookupName, get_eq_getD,
          HeaderMap.get]
  refine ⟨fun name vs => ⟨hg name vs, ?_⟩, by decide, by decide⟩
  rw [get_one_eq_head, hg name vs]

/-- C5: `remove_all` drains the map — the returned headers, regrouped by
name, carry exactly the values the map held for each name (in FIFO order),
and the map is empty afterward. -/
theorem claim_C5_remove_all (m : HeaderMap)
    (hnd : (m.headers.map Prod.fst).Nodup) :
    (∀ n : String,
      ((m.remove_all.fst.filter (fun h => h.name == n)).map Header.value)
        = m.get n) ∧
    m.remove_all.snd.is_empty = true := by
  refine ⟨fun n => ?_, rfl⟩
  show (((m.headers.flatMap
      (fun p => p.2.map (fun v => Header.mk p.1 v))).filter
        (fun h => h.name == n)).map Header.value) = m.get n
  rw [into_iter_filter_name, flatMap_select_of_nodup m.headers n hnd,
    get_eq_getD]
  rfl

/-- C5 witness: draining a concrete two-name map returns exactly the values
stored under `X-Custom`. -/
theorem claim_C5_remove_all_witness :
    ((((HeaderMap.new.add_raw "X-Custom" "value_1").add_raw "X-Other"
        "other").remove_all.fst.filter
          (fun h => h.name == "X-Custom")).map Header.value)
      = ((HeaderMap.new.add_raw "X-Custom" "value_1").add_raw "X-Other"
          "other").get "X-Custom" :=
  (claim_C5_remove_all
    ((HeaderMap.new.add_raw "X-Custom" "value_1").add_raw "X-Other" "other")
    (by decide)).1 "X-Custom"

/-- C10: a map holding an empty value sequence for a name (as
`replace_all` with `[]` produces) answers `get_one = none` and `get = []`
for it, yet `contains` is `true`, `is_empty` is `false`, and `len` counts
zero values for that name (removing the name leaves `len` unchanged). -/
theorem claim_C10_empty_entry (m : HeaderMap) (n : String)
    (hempty : m.lookup n = some [])
    (hnd : (m.headers.map Prod.fst).Nodup) :
    m.get_one n = none ∧
    m.get n = [] ∧
    m.contains n = true ∧
    m.is_empty = false ∧
    m.len = (m.remove n).len := by
  refine ⟨?_, ?_, ?_, ?_, ?_⟩
  · rw [get_one_eq_head, get_eq_getD, hempty]; rfl
  · rw [get_eq_getD, hempty]; rfl
  · show (m.lookup n).isSome = true
    rw [hempty]; rfl
  · show m.headers.isEmpty = false
    cases hh : m.headers with
    | nil => simp [HeaderMap.lookup, hh, lookupName] at hempty
    | cons p rest => rfl
  · have hlen := len_removeEntry_of_nodup m.headers n hnd
    rw [show lookupName m.headers n = some [] from hempty] at hlen
    simp only [Option.getD_some, List.length_nil, Nat.add_zero] at hlen
    exact hlen.symm

/-- C10 witness: the concrete map `replace_all "X-Custom" []` on the empty
map. -/
theorem claim_C10_empty_entry_witness :
    (HeaderMap.new.replace_all "X-Custom" []).get_one "X-Custom" = none ∧
    (HeaderMap.new.replace_all "X-Custom" []).get "X-Custom" = [] ∧
    (HeaderMap.new.replace_all "X-Custom" []).contains "X-Custom" = true ∧
    (HeaderMap.new.replace_all "X-Custom" []).is_empty = false ∧
    (HeaderMap.new.replace_all "X-Custom" []).len
      = ((HeaderMap.new.replace_all "X-Custom" []).remove "X-Custom").len :=
  claim_C10_empty_entry (HeaderMap.new.replace_all "X-Custom" []) "X-Custom"
    (by decide) (by decide)

/-- C1 counterexample: `replace_all "X-Custom" []` — a public mutation
operation applied to the empty map — leaves a dangling empty entry:
`contains` is `true` while the value sequence is empty. -/
theorem claim_C1_counterexample :
    (HeaderMap.new.replace_all "X-Custom" []).contains "X-Custom" = true ∧
    (HeaderMap.new.replace_all "X-Custom" []).get "X-Custom" = [] := by
  decide

/-- Maps reachable from the empty map by the public mutation operations,
with the bulk operations `replace_all` and `add_all` restricted to
non-empty value lists. -/
inductive Reachable : HeaderMap → Prop where
  | new : Reachable HeaderMap.new
  | add (m : HeaderMap) (h : Header) : Reachable m → Reachable (m.add h)
  | add_raw (m : HeaderMap) (n v : String) :
      Reachable m → Reachable (m.add_raw n v)
  | replace (m : HeaderMap) (h : Header) :
      Reachable m → Reachable (m.replace h).fst
  | replace_raw (m : HeaderMap) (n v : String) :
      Reachable m → Reachable (m.replace_raw n v).fst
  | replace_all (m : HeaderMap) (n : String) (vs : List String) :
      vs ≠ [] → Reachable m → Reachable (m.replace_all n vs)
  | add_all (m : HeaderMap) (n : String) (vs : List String) :
      vs ≠ [] → Reachable m → Reachable (m.add_all n vs).fst
  | remove (m : HeaderMap) (n : String) :
      Reachable m → Reachable (m.remove n)
  | remove_all (m : HeaderMap) : Reachable m → Reachable m.remove_all.snd

/-- C1 (amended): every map reachable from the empty map by the public
mutation operations — with `replace_all`/`add_all` restricted to non-empty
value lists — stores a non-empty value sequence for every present name. -/
theorem claim_C1_no_dangling_empty (m : HeaderMap) (hr : Reachable m) :
    ∀ (n : String) (vs : List String), m.lookup n = some vs → vs ≠ [] := by
  induction hr with
  | new =>
      intro n vs h
      simp [HeaderMap.new, HeaderMap.lookup, lookupName] at h
  | add m0 h0 _ ih =>
      intro n vs hl
      rw [lookup_add] at hl
      split at hl
      · obtain rfl := Option.some_inj.mp hl
        simp
      · exact ih n vs hl
  | add_raw m0 n0 v0 _ ih =>
      intro n vs hl
      simp only [HeaderMap.add_raw] at hl
      rw [lookup_add] at hl
      split at hl
      · obtain rfl := Option.some_inj.mp hl
        simp
      · exact ih n vs hl
  | replace m0 h0 _ ih =>
      intro n vs hl
      rw [lookup_replace] at hl
      split at hl
      · obtain rfl := Option.some_inj.mp hl
        simp
      · exact ih n vs hl
  | replace_raw m0 n0 v0 _ ih =>
      intro n vs hl
      simp only [HeaderMap.replace_raw] at hl
      rw [lookup_replace] at hl
      split at hl
      · obtain rfl := Option.some_inj.mp hl
        simp
      · exact ih n vs hl
  | replace_all m0 n0 vs0 hne _ ih =>
      intro n vs hl
      rw [lookup_replace_all] at hl
      split at hl
      · obtain rfl := Option.some_inj.mp hl
        exact hne
      · exact ih n vs hl
  | add_all m0 n0 vs0 hne _ ih =>
      intro n vs hl
      rw [lookup_add_all] at hl
      split at hl
      · obtain rfl := Option.some_inj.mp hl
        simp [hne]
      · exact ih n vs hl
  | remove m0 n0 _ ih =>
      intro n vs hl
      rw [lookup_remove] at hl
      split at hl
      · simp at hl
      · exact ih n vs hl
  | remove_all m0 _ ih =>
      intro n vs hl
      simp [HeaderMap.remove_all, HeaderMap.new, HeaderMap.lookup,
        lookupName] at hl

/-- C1 witness: a concrete reachable map with a present name whose value
sequence is non-empty. -/
theorem claim_C1_no_dangling_empty_witness :
    (HeaderMap.new.add_raw "X-Custom" "value_1").lookup "X-Custom"
        = some ["value_1"] ∧
    (["value_1"] : List String) ≠ [] :=
  ⟨by decide,
   claim_C1_no_dangling_empty (HeaderMap.new.add_raw "X-Custom" "value_1")
     (Reachable.add_raw HeaderMap.new "X-Custom" "value_1" Reachable.new)
     "X-Custom" ["value_1"] (by decide)⟩

end Rocket
